import Mathlib

/-!
# Verification of parse-mcc-pdf.py

A shallow embedding of the MCC-table extraction script and proofs of the
testable properties stated in its specification.  The script's pipeline is
modelled as pure functions:

* the description cleaner (Python function clean_description),
* the per-table field extractor (extract_mcc_from_dataframe),
* the per-page loop with fault isolation (extract_mcc_with_camelot),
* the JSON result writer (save_results) together with a parser for the
  produced format, and
* the top-level driver (the __main__ block).

Python strings become List Char / String, Python dicts become association
lists with insertion-order semantics, and the external table-detection
engine becomes an explicit function argument returning Except.
-/

namespace MccPdf

/-- Characters treated as whitespace by Python's str.strip() and by the
whitespace class of its regular expressions (Unicode whitespace). -/
def isPySpace (c : Char) : Bool :=
  c == ' ' || c == '\t' || c == '\n' || c.toNat == 11 || c.toNat == 12 || c == '\r' ||
  (28 ≤ c.toNat && c.toNat ≤ 31) || c.toNat == 0x85 || c.toNat == 0xa0 ||
  c.toNat == 0x1680 || (0x2000 ≤ c.toNat && c.toNat ≤ 0x200a) ||
  c.toNat == 0x2028 || c.toNat == 0x2029 || c.toNat == 0x202f ||
  c.toNat == 0x205f || c.toNat == 0x3000

/-- Remove the characters satisfying p from both ends of a list
(the effect of Python's str.strip family / anchored strip regexes). -/
def stripEnds (p : Char → Bool) (l : List Char) : List Char :=
  ((l.dropWhile p).reverse.dropWhile p).reverse

/-- Replace every maximal run of whitespace by a single space: the effect of
re.sub applied to the whitespace-run pattern with a single-space
replacement.  In clean_description it is applied to an already stripped
string. -/
def collapseWs : List Char → List Char
  | [] => []
  | [c] => [if isPySpace c then ' ' else c]
  | c1 :: c2 :: rest =>
    if isPySpace c1 && isPySpace c2 then collapseWs (c2 :: rest)
    else (if isPySpace c1 then ' ' else c1) :: collapseWs (c2 :: rest)

/-- The character replacements of clean_description: Unicode en-dash and
em-dash become an ASCII hyphen, Unicode single quotation marks become an
ASCII apostrophe, Unicode double quotation marks become an ASCII double
quote. -/
def replaceUnicodeChar (c : Char) : Char :=
  if c == '–' then '-'
  else if c == '—' then '-'
  else if c == '‘' then Char.ofNat 39
  else if c == '’' then Char.ofNat 39
  else if c == '“' then Char.ofNat 34
  else if c == '”' then Char.ofNat 34
  else c

/-- The character class of the artifact-stripping regex of
clean_description: hyphen, en-dash or whitespace. -/
def isStripChar (c : Char) : Bool :=
  c == '-' || c == '–' || isPySpace c

/-- Steps 1-4 of clean_description: trim and collapse whitespace, replace
Unicode dashes and quotes, strip leading/trailing hyphen/en-dash/whitespace
runs. -/
def preClean (s : String) : List Char :=
  stripEnds isStripChar ((collapseWs (stripEnds isPySpace s.data)).map replaceUnicodeChar)

/-- Case-insensitive comparison of a character list with a word, modelling
re.IGNORECASE for the ASCII header words of the bad patterns. -/
def eqCaseInsensitive (l : List Char) (w : List Char) : Bool :=
  l.map Char.toLower == w.map Char.toLower

/-- Full match of the parenthesized-fragment bad pattern: an opening
parenthesis, then characters other than a closing parenthesis, then a
closing parenthesis ending the string. -/
def parenOnly (l : List Char) : Bool :=
  match l with
  | [] => false
  | c :: rest =>
    c == '(' &&
    (match rest.getLast? with | some d => d == ')' | none => false) &&
    rest.dropLast.all (fun x => x != ')')

/-- The bad-pattern filter of clean_description: the cleaned string is
rejected when it fully matches (case-insensitively) one of: only digits,
only hyphens/en-dashes/whitespace (including empty), a header word,
a single parenthesized fragment, or the literal nan. -/
def isBadDescription (l : List Char) : Bool :=
  (!l.isEmpty && l.all Char.isDigit) ||
  l.all isStripChar ||
  eqCaseInsensitive l "MCC".data ||
  eqCaseInsensitive l "Title".data ||
  eqCaseInsensitive l "Description".data ||
  parenOnly l ||
  eqCaseInsensitive l "nan".data

/-- Configuration constant MIN_DESCRIPTION_LENGTH of the script. -/
def MIN_DESCRIPTION_LENGTH : Nat := 2

/-- The description cleaner clean_description of the script: empty input is
returned as is; otherwise whitespace is trimmed and collapsed, Unicode
dashes and quotes are replaced, leading/trailing hyphen/dash/whitespace
runs are stripped, and the result is rejected (empty string) when it
matches a bad pattern or is shorter than MIN_DESCRIPTION_LENGTH. -/
def clean_description (s : String) : String :=
  if s.data.isEmpty then ""
  else
    let d := preClean s
    if isBadDescription d then ""
    else if d.length < MIN_DESCRIPTION_LENGTH then ""
    else String.mk d

/-- Specification-level (propositional) reading of the bad patterns, stated
the way the spec phrases them rather than the way the code tests them. -/
def CleanedMatchesBadPattern (l : List Char) : Prop :=
  (l ≠ [] ∧ ∀ c ∈ l, c.isDigit = true) ∨
  (∀ c ∈ l, isStripChar c = true) ∨
  l.map Char.toLower = "mcc".data ∨
  l.map Char.toLower = "title".data ∨
  l.map Char.toLower = "description".data ∨
  (∃ mid, l = '(' :: (mid ++ [')']) ∧ ')' ∉ mid) ∨
  l.map Char.toLower = "nan".data

/-- Two adjacent characters are not both whitespace. -/
def SpacedApart (a b : Char) : Prop := isPySpace a = false ∨ isPySpace b = false

/-- All whitespace left by collapseWs is a single ASCII space. -/
def OnlySingleSpaces (l : List Char) : Prop :=
  (∀ c ∈ l, isPySpace c = true → c = ' ') ∧ List.Chain' SpacedApart l

/-- Word characters of the regex word class used by the word-boundary
assertions around the 4-digit code pattern (letters, digits,
underscore; ASCII reading). -/
def isWordChar (c : Char) : Bool := c.isAlphanum || c == '_'

/-- A word boundary holds against a neighbouring position: either the
position is outside the string, or the character there is not a word
character. -/
def boundaryOk (c? : Option Char) : Bool :=
  match c? with
  | none => true
  | some c => !isWordChar c

/-- The 4-digit word-bounded pattern matches at position i of l. -/
def matchFourAt (l : List Char) (i : Nat) : Bool :=
  ((List.range 4).all fun j =>
    match l[i + j]? with
    | some c => c.isDigit
    | none => false) &&
  boundaryOk (if i = 0 then none else l[i - 1]?) &&
  boundaryOk l[i + 4]?

/-- Leftmost match position of the 4-digit word-bounded pattern, the
behaviour of re.search. -/
def searchFourIdx (l : List Char) : Option Nat :=
  (List.range l.length).find? (matchFourAt l)

/-- The re.search call of extract_mcc_from_dataframe: the first
word-bounded 4-digit run of the cell text, if any. -/
def mcc_code_search (s : String) : Option String :=
  (searchFourIdx s.data).map fun i => String.mk ((s.data.drop i).take 4)

/-- Python str.strip(): remove leading and trailing whitespace. -/
def pyStrip (s : String) : String := String.mk (stripEnds isPySpace s.data)

/-- The body of the per-row loop of extract_mcc_from_dataframe: take the
first cell (stripped), search it for a word-bounded 4-digit code; if found
and the row has a second cell whose stripped text is neither empty nor the
literal nan, clean it; keep the pair when the cleaned description is
non-empty and long enough. -/
def extract_row (row : List String) : Option (String × String) :=
  let col1 := if row.length > 0 then pyStrip (row.headD "") else ""
  match mcc_code_search col1 with
  | none => none
  | some code =>
    if row.length > 1 then
      let description := pyStrip (row.getD 1 "")
      if description ≠ "" ∧ description ≠ "nan" then
        let cleaned := clean_description description
        if cleaned ≠ "" ∧ MIN_DESCRIPTION_LENGTH ≤ cleaned.length then
          some (code, cleaned)
        else none
      else none
    else none

/-- A Python dict from string to string, as an association list in
insertion order. -/
abbrev PyDict := List (String × String)

/-- Python dict item assignment: overwrite in place if the key is present,
else append. -/
def dictInsert (d : PyDict) (k v : String) : PyDict :=
  if d.any fun p => p.1 == k then
    d.map fun p => if p.1 == k then (k, v) else p
  else d ++ [(k, v)]

/-- Python dict.update: insert every pair of e, in order. -/
def dictUpdate (d : PyDict) (e : PyDict) : PyDict :=
  e.foldl (fun acc p => dictInsert acc p.1 p.2) d

/-- Lookup in a PyDict. -/
def dictLookup (d : PyDict) (k : String) : Option String :=
  (d.find? fun p => p.1 == k).map Prod.snd

/-- The keys of a PyDict. -/
def dictKeys (d : PyDict) : List String := d.map Prod.fst

/-- The function extract_mcc_from_dataframe of the script, with the table
grid as a list of rows of cell strings.  The table identifier argument is
received but never used, as in the source. -/
def extract_mcc_from_dataframe (rows : List (List String)) (tableNum : String) : PyDict :=
  rows.foldl
    (fun acc row =>
      match extract_row row with
      | some kv => dictInsert acc kv.1 kv.2
      | none => acc)
    []

/-- Propositional reading of a match of the 4-digit word-bounded pattern
at position i: four digit characters there, and no word character directly
before or after. -/
def FourDigitMatchAt (l : List Char) (i : Nat) : Prop :=
  (∀ j < 4, ∃ c, l[i + j]? = some c ∧ c.isDigit = true) ∧
  (i = 0 ∨ ∀ c, l[i - 1]? = some c → isWordChar c = false) ∧
  (∀ c, l[i + 4]? = some c → isWordChar c = false)

/-- The per-run state of extract_mcc_with_camelot: the accumulated
ExtractionResult mapping, the successful-pages list (one entry per table
that yielded codes) and the failed-pages list. -/
structure LoopState where
  all_mcc_data : PyDict
  successful_pages : List Nat
  failed_pages : List Nat

/-- The external table-detection engine, as a black box: for a page number
it returns the detected tables (each a grid of text cells) or raises. -/
abbrev Engine := Nat → Except String (List (List (List String)))

/-- The inner per-table loop of extract_mcc_with_camelot for one page:
extract codes from each table, and when a table yields a non-empty
mapping, merge it (dict.update) and record the page as successful.  The
table identifier string built from the page and table index is irrelevant
to extraction (extract_mcc_from_dataframe ignores it). -/
def processTables : LoopState → Nat → List (List (List String)) → LoopState
  | st, _, [] => st
  | st, page, t :: ts =>
    processTables
      (if extract_mcc_from_dataframe t "" ≠ [] then
        { st with
          all_mcc_data := dictUpdate st.all_mcc_data (extract_mcc_from_dataframe t ""),
          successful_pages := st.successful_pages ++ [page] }
      else st) page ts

/-- One iteration of the page loop: an engine exception is caught, the page
is recorded as failed and processing continues; otherwise the page's tables
are processed. -/
def processPage (engine : Engine) (st : LoopState) (page : Nat) : LoopState :=
  match engine page with
  | Except.error _ => { st with failed_pages := st.failed_pages ++ [page] }
  | Except.ok tables => processTables st page tables

/-- The page loop of extract_mcc_with_camelot over an explicit page list,
starting from the empty state. -/
def extract_mcc_with_camelot (pages : List Nat) (engine : Engine) : LoopState :=
  pages.foldl (processPage engine) ⟨[], [], []⟩

/-- The successful row extractions of one table, in row order. -/
def tableInserts (t : List (List String)) : List (String × String) :=
  t.filterMap extract_row

/-- The successful row extractions contributed by one page, in order. -/
def pageInserts (engine : Engine) (p : Nat) : List (String × String) :=
  match engine p with
  | Except.error _ => []
  | Except.ok tables => tables.flatMap tableInserts

/-- All successful row extractions of a run, in iteration order. -/
def runInserts (pages : List Nat) (engine : Engine) : List (String × String) :=
  pages.flatMap (pageInserts engine)

/-- The value written by the last occurrence of a key in a sequence of
insertions. -/
def lastWrite : List (String × String) → String → Option String
  | [], _ => none
  | p :: rest, k => (lastWrite rest k).or (if p.1 = k then some p.2 else none)

/-- Whether the engine raises for a page. -/
def engineRaises (engine : Engine) (p : Nat) : Bool :=
  match engine p with
  | Except.error _ => true
  | Except.ok _ => false

/-- A concrete engine for the fault-isolation scenario: page 5 raises,
pages 4 and 6 succeed with one one-row table each. -/
def engineScenario : Engine := fun p =>
  if p = 5 then Except.error "Ghostscript failure"
  else if p = 4 then Except.ok [[["4722", "Travel Agencies"]]]
  else Except.ok [[["6011", "Banks"]]]

/-- The double-quote character. -/
def quoteChar : Char := Char.ofNat 34

/-- The backslash character. -/
def backslashChar : Char := '\\'

/-- The opening-brace character. -/
def lbraceChar : Char := Char.ofNat 123

/-- The closing-brace character. -/
def rbraceChar : Char := Char.ofNat 125

/-- Lower-case hexadecimal digit for a value below 16. -/
def hexDigitChar : Nat → Char
  | 0 => '0' | 1 => '1' | 2 => '2' | 3 => '3' | 4 => '4'
  | 5 => '5' | 6 => '6' | 7 => '7' | 8 => '8' | 9 => '9'
  | 10 => 'a' | 11 => 'b' | 12 => 'c' | 13 => 'd' | 14 => 'e' | _ => 'f'

/-- Four lower-case hex digits of a value below 65536, most significant
first, as in a JSON u-escape. -/
def toHex4 (n : Nat) : List Char :=
  [hexDigitChar (n / 4096 % 16), hexDigitChar (n / 256 % 16),
    hexDigitChar (n / 16 % 16), hexDigitChar (n % 16)]

/-- JSON escaping of one character as performed by json.dump with its
default ensure-ascii setting: quote, backslash and the common control
characters get two-character escapes, other characters outside the
printable ASCII range get u-escapes, astral characters a surrogate pair. -/
def escapeChar (c : Char) : List Char :=
  if c = quoteChar then [backslashChar, quoteChar]
  else if c = backslashChar then [backslashChar, backslashChar]
  else if c = '\n' then [backslashChar, 'n']
  else if c = '\r' then [backslashChar, 'r']
  else if c = '\t' then [backslashChar, 't']
  else if c.toNat = 8 then [backslashChar, 'b']
  else if c.toNat = 12 then [backslashChar, 'f']
  else if c.toNat < 0x20 then backslashChar :: 'u' :: toHex4 c.toNat
  else if c.toNat ≤ 0x7e then [c]
  else if c.toNat < 0x10000 then backslashChar :: 'u' :: toHex4 c.toNat
  else
    backslashChar :: 'u' ::
      (toHex4 (0xd800 + (c.toNat - 0x10000) / 0x400) ++
        backslashChar :: 'u' :: toHex4 (0xdc00 + (c.toNat - 0x10000) % 0x400))

/-- JSON escaping of a character sequence. -/
def escapeList (s : List Char) : List Char :=
  s.foldr (fun c acc => escapeChar c ++ acc) []

/-- The pairs of the mapping sorted by key ascending (sort_keys of
json.dump). -/
def sortPairs (d : PyDict) : List (String × String) :=
  d.mergeSort fun p q => decide (p.1 ≤ q.1)

/-- The item lines of the 2-space-indented JSON object: each item is two
spaces, the quoted escaped key, a colon and space, and the quoted escaped
value; items are separated by a comma and newline, and the last item is
followed by a newline and the closing brace. -/
def renderItems : List (String × String) → List Char
  | [] => []
  | p :: [] =>
    ' ' :: ' ' :: quoteChar :: (escapeList p.1.data ++
      (quoteChar :: ':' :: ' ' :: quoteChar :: (escapeList p.2.data ++
        (quoteChar :: '\n' :: rbraceChar :: []))))
  | p :: q :: qs =>
    ' ' :: ' ' :: quoteChar :: (escapeList p.1.data ++
      (quoteChar :: ':' :: ' ' :: quoteChar :: (escapeList p.2.data ++
        (quoteChar :: ',' :: '\n' :: renderItems (q :: qs)))))

/-- The text written by save_results: the JSON serialization of the
mapping with keys sorted ascending and 2-space indentation, as produced
by json.dump; the empty mapping serializes to a bare empty object. -/
def save_results_content (mcc_data : PyDict) : String :=
  match sortPairs mcc_data with
  | [] => "\x7b\x7d"
  | p :: ps => String.mk (lbraceChar :: '\n' :: renderItems (p :: ps))

/-- Value of a hexadecimal digit character. -/
def hexVal (c : Char) : Option Nat :=
  if c = '0' then some 0 else if c = '1' then some 1
  else if c = '2' then some 2 else if c = '3' then some 3
  else if c = '4' then some 4 else if c = '5' then some 5
  else if c = '6' then some 6 else if c = '7' then some 7
  else if c = '8' then some 8 else if c = '9' then some 9
  else if c = 'a' then some 10 else if c = 'b' then some 11
  else if c = 'c' then some 12 else if c = 'd' then some 13
  else if c = 'e' then some 14 else if c = 'f' then some 15
  else none

/-- Value of four hex digits, most significant first. -/
def ofHex4 (a b c d : Char) : Option Nat :=
  match hexVal a, hexVal b, hexVal c, hexVal d with
  | some x, some y, some z, some w => some (x * 4096 + y * 256 + z * 16 + w)
  | _, _, _, _ => none

/-- Decoding of a low surrogate value m paired with the pending high
surrogate value n. -/
def decodeLowSurrogate (n m : Nat) (r3 : List Char) : Option (Char × List Char) :=
  if 0xdc00 ≤ m ∧ m < 0xe000 then
    some (Char.ofNat (0x10000 + (n - 0xd800) * 0x400 + (m - 0xdc00)), r3)
  else none

/-- After a high surrogate value n, the input must continue with a
u-escape holding the low surrogate. -/
def decodeSurrogateTail (n : Nat) : List Char → Option (Char × List Char)
  | x :: y :: a2 :: b2 :: c2 :: d2 :: r3 =>
    if x = backslashChar ∧ y = 'u' then
      match ofHex4 a2 b2 c2 d2 with
      | none => none
      | some m => decodeLowSurrogate n m r3
    else none
  | _ => none

/-- Decoding of a u-escape value: a plain scalar decodes directly, a high
surrogate requires a following low-surrogate escape. -/
def decodeUnicodeNat (n : Nat) (r2 : List Char) : Option (Char × List Char) :=
  if n < 0xd800 then some (Char.ofNat n, r2)
  else if 0xe000 ≤ n then some (Char.ofNat n, r2)
  else if n < 0xdc00 then decodeSurrogateTail n r2
  else none

/-- Decoding of a u-escape given its four hex digit characters. -/
def decodeUnicode (a b c d : Char) (r2 : List Char) : Option (Char × List Char) :=
  match ofHex4 a b c d with
  | none => none
  | some n => decodeUnicodeNat n r2

/-- Decoding of one JSON string character: a backslash escape, or any
plain character other than an unescaped quote. -/
def decodeOne : List Char → Option (Char × List Char)
  | [] => none
  | c :: rest =>
    if c = quoteChar then none
    else if c = backslashChar then
      match rest with
      | [] => none
      | e :: r =>
        if e = quoteChar then some (quoteChar, r)
        else if e = backslashChar then some (backslashChar, r)
        else if e = 'n' then some ('\n', r)
        else if e = 'r' then some ('\r', r)
        else if e = 't' then some ('\t', r)
        else if e = 'b' then some (Char.ofNat 8, r)
        else if e = 'f' then some (Char.ofNat 12, r)
        else if e = 'u' then
          match r with
          | a :: b :: c2 :: d :: r2 => decodeUnicode a b c2 d r2
          | _ => none
        else none
    else some (c, rest)

/-- JSON string-body parsing: decode characters until the closing quote,
returning the decoded content and the input after the quote.  Fuelled by
an upper bound on the number of decoded characters. -/
def parseStringBody : Nat → List Char → Option (List Char × List Char)
  | 0, _ => none
  | Nat.succ fuel, l =>
    match l with
    | [] => none
    | c :: rest =>
      if c = quoteChar then some ([], rest)
      else
        match decodeOne (c :: rest) with
        | none => none
        | some (ch, r) => (parseStringBody fuel r).map fun pr => (ch :: pr.1, pr.2)

/-- JSON string parsing with sufficient fuel. -/
def parseString (l : List Char) : Option (List Char × List Char) :=
  parseStringBody (l.length + 1) l

/-- Continuation after an item's key and value have been parsed: either a
comma and newline and further items, or the newline and closing brace
ending the object. -/
def parseItemAfterVal (next : List Char → Option (List (String × String)))
    (k v : List Char) : List Char → Option (List (String × String))
  | ',' :: '\n' :: r4 => (next r4).map fun items => (String.mk k, String.mk v) :: items
  | '\n' :: rb :: [] =>
    if rb = rbraceChar then some [(String.mk k, String.mk v)] else none
  | _ => none

/-- Continuation after an item's key: a colon, a space, and the quoted
value. -/
def parseItemAfterKey (next : List Char → Option (List (String × String)))
    (k : List Char) : List Char → Option (List (String × String))
  | ':' :: ' ' :: q2 :: r2 =>
    if q2 = quoteChar then
      match parseString r2 with
      | some pr => parseItemAfterVal next k pr.1 pr.2
      | none => none
    else none
  | _ => none

/-- One item line: two spaces of indentation and the quoted key. -/
def parseItemStart (next : List Char → Option (List (String × String))) :
    List Char → Option (List (String × String))
  | ' ' :: ' ' :: q1 :: r =>
    if q1 = quoteChar then
      match parseString r with
      | some pr => parseItemAfterKey next pr.1 pr.2
      | none => none
    else none
  | _ => none

/-- The item lines of a JSON object, fuelled by the item count. -/
def parseItems : Nat → List Char → Option (List (String × String))
  | 0, _ => none
  | Nat.succ fuel, l => parseItemStart (parseItems fuel) l

/-- Parsing of the saved file: the empty object, or an object opened by a
brace and newline followed by its item lines. -/
def parse_saved (l : List Char) : Option (List (String × String)) :=
  match l with
  | c1 :: c2 :: [] => if c1 = lbraceChar ∧ c2 = rbraceChar then some [] else none
  | c1 :: c2 :: rest => if c1 = lbraceChar ∧ c2 = '\n' then parseItems rest.length rest else none
  | _ => none

/-- Observable outcome of the top-level driver. -/
structure MainOutcome where
  exitCode : Nat
  extractionRan : Bool
  outputWritten : Option String

/-- Model of the script's top-level block after argument parsing: a
missing input file reports and exits with status 1 before any extraction;
otherwise extraction runs, the results (or an empty mapping) are saved,
and the script finishes with status 0. -/
def main_model (pdfExists : Bool) (pages : List Nat) (engine : Engine) : MainOutcome :=
  if pdfExists = false then ⟨1, false, none⟩
  else
    let mcc_data := (extract_mcc_with_camelot pages engine).all_mcc_data
    if mcc_data ≠ [] then ⟨0, true, some (save_results_content mcc_data)⟩
    else ⟨0, true, some (save_results_content [])⟩

theorem parenOnly_iff (l : List Char) :
    parenOnly l = true ↔ ∃ mid, l = '(' :: (mid ++ [')']) ∧ ')' ∉ mid := by
  constructor
  · intro h
    match l, h with
    | c :: rest, h =>
      simp only [parenOnly, Bool.and_eq_true, beq_iff_eq] at h
      obtain ⟨⟨hc, hlast⟩, hmid⟩ := h
      match hrest : rest.getLast?, hlast with
      | some d, hlast =>
        simp only [beq_iff_eq] at hlast
        subst hlast hc
        have hne : rest ≠ [] := by
          intro h0; rw [h0] at hrest; simp at hrest
        have hsplit : rest.dropLast ++ [')'] = rest := by
          have h2 := List.dropLast_concat_getLast hne
          have h3 : rest.getLast hne = ')' := by
            have := List.getLast?_eq_getLast rest hne
            rw [hrest] at this
            exact (Option.some_injective _ this).symm
          rw [h3] at h2
          exact h2
        refine ⟨rest.dropLast, by rw [hsplit], ?_⟩
        intro hmem
        have := List.all_eq_true.mp hmid _ hmem
        simp at this
  · rintro ⟨mid, rfl, hmid⟩
    have h1 : (mid ++ [')']).getLast? = some ')' := List.getLast?_concat _
    simp only [parenOnly, h1, List.dropLast_concat, beq_self_eq_true, Bool.true_and,
      Bool.and_eq_true, List.all_eq_true]
    intro x hx
    simp only [bne_iff_ne, ne_eq]
    intro hx'
    exact hmid (hx' ▸ hx)

theorem isBadDescription_iff (l : List Char) :
    isBadDescription l = true ↔ CleanedMatchesBadPattern l := by
  have hm : "MCC".data.map Char.toLower = "mcc".data := by decide
  have ht : "Title".data.map Char.toLower = "title".data := by decide
  have hd : "Description".data.map Char.toLower = "description".data := by decide
  have hn : "nan".data.map Char.toLower = "nan".data := by decide
  simp only [isBadDescription, CleanedMatchesBadPattern, Bool.or_eq_true,
    Bool.and_eq_true, Bool.not_eq_true', List.isEmpty_eq_false, List.all_eq_true,
    eqCaseInsensitive, beq_iff_eq, parenOnly_iff, hm, ht, hd, hn, or_assoc]

theorem stripEnds_head?_not (p : Char → Bool) (l : List Char) (c : Char)
    (h : (stripEnds p l).head? = some c) : p c = false := by
  unfold stripEnds at h
  rw [List.head?_reverse] at h
  obtain ⟨t, ht⟩ := List.dropWhile_suffix (l := (l.dropWhile p).reverse) p
  have h2 : ((l.dropWhile p).reverse).getLast? = some c := by
    rw [← ht, List.getLast?_append, h]
    rfl
  rw [List.getLast?_reverse] at h2
  have hd := List.head?_dropWhile_not p l
  rw [h2] at hd
  exact hd

theorem stripEnds_getLast?_not (p : Char → Bool) (l : List Char) (c : Char)
    (h : (stripEnds p l).getLast? = some c) : p c = false := by
  unfold stripEnds at h
  rw [List.getLast?_reverse] at h
  have hd := List.head?_dropWhile_not p (l.dropWhile p).reverse
  rw [h] at hd
  exact hd

/-- C1: any input string whose cleaned form (after whitespace trim/collapse,
Unicode dash and quote replacement, and stripping of leading/trailing
hyphen/en-dash/whitespace runs) fully matches, case-insensitively, one of
the bad patterns — only digits, only hyphens/en-dashes/whitespace
(including empty), exactly MCC or Title or Description, a single
parenthesized fragment, or nan — is rejected by the description cleaner,
which returns the empty string. -/
theorem clean_description_rejects_bad_patterns (s : String)
    (h : CleanedMatchesBadPattern (preClean s)) :
    clean_description s = "" := by
  have hb : isBadDescription (preClean s) = true := (isBadDescription_iff _).mpr h
  unfold clean_description
  rcases Bool.eq_false_or_eq_true s.data.isEmpty with he | he <;> simp [he, hb]

theorem clean_description_rejects_bad_patterns_witness :
    CleanedMatchesBadPattern (preClean " --123-- ") ∧
    clean_description " --123-- " = "" := by
  have hpre : preClean " --123-- " = ['1', '2', '3'] := by decide
  have h : CleanedMatchesBadPattern (preClean " --123-- ") := by
    rw [hpre]
    exact Or.inl ⟨by decide, by decide⟩
  exact ⟨h, clean_description_rejects_bad_patterns _ h⟩

/-- C2: every accepted (non-empty) output of the description cleaner has
length at least MIN_DESCRIPTION_LENGTH (= 2) and carries no leading or
trailing hyphen, en-dash, or whitespace character. -/
theorem clean_description_accepted_trimmed (s : String)
    (h : clean_description s ≠ "") :
    MIN_DESCRIPTION_LENGTH ≤ (clean_description s).length ∧
    (∀ c, (clean_description s).data.head? = some c → isStripChar c = false) ∧
    (∀ c, (clean_description s).data.getLast? = some c → isStripChar c = false) := by
  by_cases he : s.data.isEmpty
  · simp [clean_description, he] at h
  · by_cases hb : isBadDescription (preClean s)
    · simp [clean_description, he, hb] at h
    · by_cases hl : (preClean s).length < MIN_DESCRIPTION_LENGTH
      · simp [clean_description, he, hb, hl] at h
      · have hres : clean_description s = String.mk (preClean s) := by
          simp [clean_description, he, hb, hl]
        rw [hres]
        refine ⟨Nat.le_of_not_lt hl, ?_, ?_⟩
        · intro c hc
          exact stripEnds_head?_not _ _ c hc
        · intro c hc
          exact stripEnds_getLast?_not _ _ c hc

theorem clean_description_accepted_trimmed_witness :
    clean_description "ab" ≠ "" ∧
    MIN_DESCRIPTION_LENGTH ≤ (clean_description "ab").length ∧
    isStripChar 'a' = false ∧ isStripChar 'b' = false :=
  have h := clean_description_accepted_trimmed "ab" (by decide)
  ⟨by decide, h.1, h.2.1 'a' (by decide), h.2.2 'b' (by decide)⟩

theorem collapseWs_cons_head (c2 : Char) (rest : List Char)
    (h : isPySpace c2 = false) : ∃ tl, collapseWs (c2 :: rest) = c2 :: tl := by
  cases rest with
  | nil => exact ⟨[], by simp [collapseWs, h]⟩
  | cons r rs => exact ⟨collapseWs (r :: rs), by simp [collapseWs, h]⟩

theorem collapseWs_onlySingleSpaces (l : List Char) :
    OnlySingleSpaces (collapseWs l) := by
  induction l using collapseWs.induct with
  | case1 =>
    exact ⟨by intro c hc; simp [collapseWs] at hc, by simp [collapseWs]⟩
  | case2 c =>
    refine ⟨?_, ?_⟩
    · intro x hx hsp
      simp only [collapseWs, List.mem_singleton] at hx
      subst hx
      split
      · rfl
      · rename_i hns
        rw [if_neg hns] at hsp
        exact absurd hsp hns
    · simp only [collapseWs]
      exact List.chain'_singleton _
  | case3 c1 c2 rest hsp ih =>
    simpa [collapseWs, hsp] using ih
  | case4 c1 c2 rest hsp ih =>
    rw [show collapseWs (c1 :: c2 :: rest) =
        (if isPySpace c1 then ' ' else c1) :: collapseWs (c2 :: rest) by
      simp [collapseWs, hsp]]
    obtain ⟨ihA, ihB⟩ := ih
    refine ⟨?_, ?_⟩
    · intro x hx hspx
      rcases List.mem_cons.mp hx with hx | hx
      · subst hx
        split
        · rfl
        · rename_i hns
          rw [if_neg hns] at hspx
          exact absurd hspx hns
      · exact ihA x hx hspx
    · rw [List.chain'_cons']
      refine ⟨?_, ihB⟩
      intro y hy
      by_cases h1 : isPySpace c1
      · have h2 : isPySpace c2 = false := by
          by_contra hcon
          rw [Bool.not_eq_false] at hcon
          exact hsp (by rw [h1, hcon]; rfl)
        obtain ⟨tl, htl⟩ := collapseWs_cons_head c2 rest h2
        rw [htl] at hy
        simp only [List.head?_cons, Option.mem_def, Option.some.injEq] at hy
        subst hy
        exact Or.inr h2
      · exact Or.inl (by simp [h1])

theorem collapseWs_eq_self (l : List Char) (h : OnlySingleSpaces l) :
    collapseWs l = l := by
  induction l using collapseWs.induct with
  | case1 => rfl
  | case2 c =>
    simp only [collapseWs]
    split
    · rename_i hsp
      rw [h.1 c (by simp) hsp]
    · rfl
  | case3 c1 c2 rest hsp ih =>
    exfalso
    have hchain := (List.chain'_cons.mp h.2).1
    simp only [Bool.and_eq_true] at hsp
    rcases hchain with h1 | h1
    · simp [hsp.1] at h1
    · simp [hsp.2] at h1
  | case4 c1 c2 rest hsp ih =>
    have htail : OnlySingleSpaces (c2 :: rest) := by
      refine ⟨fun c hc => h.1 c (List.mem_cons_of_mem _ hc), ?_⟩
      exact (List.chain'_cons.mp h.2).2
    rw [show collapseWs (c1 :: c2 :: rest) =
        (if isPySpace c1 then ' ' else c1) :: collapseWs (c2 :: rest) by
      simp [collapseWs, hsp]]
    rw [ih htail]
    congr 1
    split
    · rename_i h1
      exact (h.1 c1 (by simp) h1).symm
    · rfl

theorem isPySpace_replaceUnicodeChar (c : Char) :
    isPySpace (replaceUnicodeChar c) = isPySpace c := by
  by_cases h1 : c = '–'; · subst h1; decide
  by_cases h2 : c = '—'; · subst h2; decide
  by_cases h3 : c = '‘'; · subst h3; decide
  by_cases h4 : c = '’'; · subst h4; decide
  by_cases h5 : c = '“'; · subst h5; decide
  by_cases h6 : c = '”'; · subst h6; decide
  rw [show replaceUnicodeChar c = c by simp [replaceUnicodeChar, h1, h2, h3, h4, h5, h6]]

theorem replaceUnicodeChar_idem (c : Char) :
    replaceUnicodeChar (replaceUnicodeChar c) = replaceUnicodeChar c := by
  by_cases h1 : c = '–'; · subst h1; decide
  by_cases h2 : c = '—'; · subst h2; decide
  by_cases h3 : c = '‘'; · subst h3; decide
  by_cases h4 : c = '’'; · subst h4; decide
  by_cases h5 : c = '“'; · subst h5; decide
  by_cases h6 : c = '”'; · subst h6; decide
  have hc : replaceUnicodeChar c = c := by
    simp [replaceUnicodeChar, h1, h2, h3, h4, h5, h6]
  rw [hc, hc]

theorem onlySingleSpaces_map_replace (l : List Char) (h : OnlySingleSpaces l) :
    OnlySingleSpaces (l.map replaceUnicodeChar) := by
  refine ⟨?_, ?_⟩
  · intro c hc hsp
    obtain ⟨c0, hc0, rfl⟩ := List.mem_map.mp hc
    rw [isPySpace_replaceUnicodeChar] at hsp
    rw [h.1 c0 hc0 hsp]
    decide
  · rw [List.chain'_map]
    refine h.2.imp ?_
    intro a b hab
    rcases hab with hab | hab
    · exact Or.inl (by rw [isPySpace_replaceUnicodeChar, hab])
    · exact Or.inr (by rw [isPySpace_replaceUnicodeChar, hab])

theorem stripEnds_within (p : Char → Bool) (l : List Char) :
    stripEnds p l <:+: l := by
  obtain ⟨u, hu⟩ := List.dropWhile_suffix (l := l) p
  obtain ⟨t, ht⟩ := List.dropWhile_suffix (l := (l.dropWhile p).reverse) p
  refine ⟨u, t.reverse, ?_⟩
  have hm : l.dropWhile p = stripEnds p l ++ t.reverse := by
    have h3 := congrArg List.reverse ht
    rw [List.reverse_append, List.reverse_reverse] at h3
    exact h3.symm
  rw [List.append_assoc, ← hm, hu]

theorem chain'_of_within {R : Char → Char → Prop} {l₁ l₂ : List Char}
    (h : List.Chain' R l₂) (hin : l₁ <:+: l₂) : List.Chain' R l₁ := by
  obtain ⟨s, t, rfl⟩ := hin
  have h1 := (List.chain'_append.mp h).1
  exact (List.chain'_append.mp h1).2.1

theorem onlySingleSpaces_of_within {l₁ l₂ : List Char} (h : l₁ <:+: l₂)
    (h2 : OnlySingleSpaces l₂) : OnlySingleSpaces l₁ :=
  ⟨fun c hc => h2.1 c (h.subset hc), chain'_of_within h2.2 h⟩

theorem stripEnds_eq_self (p : Char → Bool) (l : List Char)
    (hh : ∀ c, l.head? = some c → p c = false)
    (hl : ∀ c, l.getLast? = some c → p c = false) : stripEnds p l = l := by
  have h1 : l.dropWhile p = l := by
    cases l with
    | nil => rfl
    | cons c t => exact List.dropWhile_cons_of_neg (by simp [hh c rfl])
  have h2 : l.reverse.dropWhile p = l.reverse := by
    cases hr : l.reverse with
    | nil => rfl
    | cons c t =>
      refine List.dropWhile_cons_of_neg ?_
      have : l.getLast? = some c := by
        rw [← List.head?_reverse, hr, List.head?_cons]
      simp [hl c this]
  unfold stripEnds
  rw [h1, h2, List.reverse_reverse]

theorem map_replace_eq_self (l : List Char)
    (h : ∀ c ∈ l, replaceUnicodeChar c = c) : l.map replaceUnicodeChar = l := by
  induction l with
  | nil => rfl
  | cons c t ih =>
    rw [List.map_cons, h c (by simp), ih fun x hx => h x (List.mem_cons_of_mem _ hx)]

theorem isStripChar_false_isPySpace_false {c : Char} (h : isStripChar c = false) :
    isPySpace c = false := by
  by_contra hcon
  rw [Bool.not_eq_false] at hcon
  unfold isStripChar at h
  simp [hcon] at h

/-- C6: the description cleaner is idempotent on accepted inputs: whenever
clean_description s is non-empty, cleaning it again returns it unchanged. -/
theorem clean_description_idempotent (s : String) (h : clean_description s ≠ "") :
    clean_description (clean_description s) = clean_description s := by
  by_cases he : s.data.isEmpty
  · simp [clean_description, he] at h
  by_cases hb : isBadDescription (preClean s)
  · simp [clean_description, he, hb] at h
  by_cases hl : (preClean s).length < MIN_DESCRIPTION_LENGTH
  · simp [clean_description, he, hb, hl] at h
  have hres : clean_description s = String.mk (preClean s) := by
    simp [clean_description, he, hb, hl]
  have hoss : OnlySingleSpaces (preClean s) :=
    onlySingleSpaces_of_within (stripEnds_within _ _)
      (onlySingleSpaces_map_replace _ (collapseWs_onlySingleSpaces _))
  have hrep : ∀ c ∈ preClean s, replaceUnicodeChar c = c := by
    intro c hc
    have hc2 := (stripEnds_within isStripChar _).subset hc
    obtain ⟨c0, _, rfl⟩ := List.mem_map.mp hc2
    exact replaceUnicodeChar_idem c0
  have hhead : ∀ c, (preClean s).head? = some c → isStripChar c = false :=
    fun c hc => stripEnds_head?_not isStripChar _ c hc
  have hlast : ∀ c, (preClean s).getLast? = some c → isStripChar c = false :=
    fun c hc => stripEnds_getLast?_not isStripChar _ c hc
  have hheadws : ∀ c, (preClean s).head? = some c → isPySpace c = false :=
    fun c hc => isStripChar_false_isPySpace_false (hhead c hc)
  have hlastws : ∀ c, (preClean s).getLast? = some c → isPySpace c = false :=
    fun c hc => isStripChar_false_isPySpace_false (hlast c hc)
  have hfix : preClean (String.mk (preClean s)) = preClean s := by
    show stripEnds isStripChar
        ((collapseWs (stripEnds isPySpace (preClean s))).map replaceUnicodeChar) =
      preClean s
    rw [stripEnds_eq_self isPySpace _ hheadws hlastws, collapseWs_eq_self _ hoss,
      map_replace_eq_self _ hrep]
    exact stripEnds_eq_self isStripChar _ hhead hlast
  have hne2 : (String.mk (preClean s)).data.isEmpty = false := by
    have hlen : MIN_DESCRIPTION_LENGTH ≤ (preClean s).length := Nat.le_of_not_lt hl
    have : preClean s ≠ [] := by
      intro h0
      rw [h0] at hlen
      exact absurd hlen (by decide)
    simpa using this
  rw [hres]
  simp only [clean_description, hne2, Bool.false_eq_true, if_false, hfix]
  simp [hb, hl]

theorem clean_description_idempotent_witness :
    clean_description "Travel Agencies" ≠ "" ∧
    clean_description (clean_description "Travel Agencies") =
      clean_description "Travel Agencies" :=
  ⟨by decide, clean_description_idempotent "Travel Agencies" (by decide)⟩

theorem boundaryOk_iff (c? : Option Char) :
    boundaryOk c? = true ↔ ∀ c, c? = some c → isWordChar c = false := by
  cases c? with
  | none => simp [boundaryOk]
  | some c => simp [boundaryOk]

theorem matchFourAt_iff (l : List Char) (i : Nat) :
    matchFourAt l i = true ↔ FourDigitMatchAt l i := by
  unfold matchFourAt FourDigitMatchAt
  simp only [Bool.and_eq_true, List.all_eq_true, List.mem_range, boundaryOk_iff]
  constructor
  · rintro ⟨⟨h1, h2⟩, h3⟩
    refine ⟨?_, ?_, h3⟩
    · intro j hj
      have := h1 j hj
      match hc : l[i + j]? with
      | some c => exact ⟨c, rfl, by rw [hc] at this; exact this⟩
      | none => rw [hc] at this; exact absurd this (by simp)
    · by_cases hi : i = 0
      · exact Or.inl hi
      · refine Or.inr ?_
        intro c hc
        have := h2 c
        rw [if_neg hi] at this
        exact this hc
  · rintro ⟨h1, h2, h3⟩
    refine ⟨⟨?_, ?_⟩, h3⟩
    · intro j hj
      obtain ⟨c, hc, hd⟩ := h1 j hj
      rw [hc]
      exact hd
    · intro c hc
      by_cases hi : i = 0
      · rw [if_pos hi] at hc
        exact absurd hc (by simp)
      · rw [if_neg hi] at hc
        rcases h2 with h2 | h2
        · exact absurd h2 hi
        · exact h2 c hc

theorem find?_range_eq_some {p : Nat → Bool} {n i : Nat} :
    (List.range n).find? p = some i ↔
      i < n ∧ p i = true ∧ ∀ j < i, p j = false := by
  induction n with
  | zero => simp
  | succ n ih =>
    rw [List.range_succ, List.find?_append]
    constructor
    · intro h
      cases hfind : (List.range n).find? p with
      | some j =>
        rw [hfind] at h
        obtain rfl : j = i := by simpa using h
        obtain ⟨h1, h2, h3⟩ := ih.mp hfind
        exact ⟨Nat.lt_succ_of_lt h1, h2, h3⟩
      | none =>
        rw [hfind, Option.none_or, List.find?_singleton] at h
        by_cases hp : p n = true
        · rw [if_pos hp] at h
          obtain rfl : n = i := by simpa using h
          refine ⟨Nat.lt_succ_self _, hp, ?_⟩
          intro j hj
          have := List.find?_eq_none.mp hfind j (List.mem_range.mpr hj)
          exact Bool.not_eq_true _ ▸ by simpa using this
        · rw [if_neg hp] at h
          exact absurd h (by simp)
    · rintro ⟨h1, h2, h3⟩
      rcases Nat.lt_succ_iff_lt_or_eq.mp h1 with h1 | rfl
      · rw [ih.mpr ⟨h1, h2, h3⟩]
        rfl
      · have hnone : (List.range i).find? p = none := by
          rw [List.find?_eq_none]
          intro x hx
          rw [List.mem_range] at hx
          simp [h3 x hx]
        rw [hnone, Option.none_or, List.find?_singleton, if_pos h2]

theorem digit_isWordChar {c : Char} (h : c.isDigit = true) : isWordChar c = true := by
  simp [isWordChar, Char.isAlphanum, h]

/-- C3: the code of a table row is taken from the first cell as the first
word-bounded 4-digit run: the search returns the leftmost matching
position; the row with first cell 12 4789 55 yields the code 4789; and a
row whose first cell has no such run is skipped. -/
theorem row_code_is_first_word_bounded_four_digit_run :
    (∀ (l : List Char) (i : Nat),
      searchFourIdx l = some i ↔
        FourDigitMatchAt l i ∧ ∀ j < i, ¬ FourDigitMatchAt l j) ∧
    extract_row ["12 4789 55", "Transportation Services"] =
      some ("4789", "Transportation Services") ∧
    (∀ row : List String,
      mcc_code_search (if row.length > 0 then pyStrip (row.headD "") else "") = none →
      extract_row row = none) := by
  refine ⟨?_, by decide, ?_⟩
  · intro l i
    unfold searchFourIdx
    rw [find?_range_eq_some]
    constructor
    · rintro ⟨h1, h2, h3⟩
      refine ⟨(matchFourAt_iff l i).mp h2, ?_⟩
      intro j hj hcon
      have hfalse := h3 j hj
      rw [(matchFourAt_iff l j).mpr hcon] at hfalse
      exact absurd hfalse (by simp)
    · rintro ⟨h1, h2⟩
      have hlt : i < l.length := by
        obtain ⟨c, hc, _⟩ := h1.1 0 (by decide)
        rw [Nat.add_zero] at hc
        exact (List.getElem?_eq_some_iff.mp hc).1
      refine ⟨hlt, (matchFourAt_iff l i).mpr h1, ?_⟩
      intro j hj
      rcases Bool.eq_false_or_eq_true (matchFourAt l j) with hb | hb
      · exact absurd ((matchFourAt_iff l j).mp hb) (h2 j hj)
      · exact hb
  · intro row hnone
    simp only [extract_row, hnone]

theorem row_code_is_first_word_bounded_four_digit_run_witness :
    mcc_code_search
      (if (["no digits", "x"] : List String).length > 0 then
        pyStrip ((["no digits", "x"] : List String).headD "")
      else "") = none ∧
    extract_row ["no digits", "x"] = none :=
  ⟨by decide,
    row_code_is_first_word_bounded_four_digit_run.2.2 ["no digits", "x"] (by decide)⟩

/-- C9: a table row with fewer than two cells contributes no entry to the
table's output mapping, even when its first cell holds a valid
word-bounded 4-digit code. -/
theorem short_row_contributes_nothing (row : List String) (code : String)
    (hlen : row.length < 2)
    (hcode : mcc_code_search
      (if row.length > 0 then pyStrip (row.headD "") else "") = some code) :
    extract_row row = none ∧ ∀ tn, extract_mcc_from_dataframe [row] tn = [] := by
  have hrow : extract_row row = none := by
    simp only [extract_row, hcode]
    rw [if_neg (by omega)]
  exact ⟨hrow, fun tn => by simp [extract_mcc_from_dataframe, hrow]⟩

theorem short_row_contributes_nothing_witness :
    extract_row ["1234"] = none ∧ extract_mcc_from_dataframe [["1234"]] "1-1" = [] :=
  ⟨(short_row_contributes_nothing ["1234"] "1234" (by decide) (by decide)).1,
    (short_row_contributes_nothing ["1234"] "1234" (by decide) (by decide)).2 "1-1"⟩

/-- C10: the word-bounded 4-digit pattern never matches inside a longer
digit run: any found match has no digit directly before or after it, the
cell 12345 yields no code, and such a row is skipped. -/
theorem four_digit_match_is_maximal_run :
    (∀ (l : List Char) (i : Nat), searchFourIdx l = some i →
      (∀ c, i ≠ 0 → l[i - 1]? = some c → c.isDigit = false) ∧
      (∀ c, l[i + 4]? = some c → c.isDigit = false)) ∧
    mcc_code_search "12345" = none ∧
    extract_row ["12345", "Some description"] = none := by
  refine ⟨?_, by decide, by decide⟩
  intro l i h
  unfold searchFourIdx at h
  have hm : matchFourAt l i = true := (find?_range_eq_some.mp h).2.1
  rw [matchFourAt_iff] at hm
  obtain ⟨h1, h2, h3⟩ := hm
  constructor
  · intro c hi hc
    rcases h2 with h2 | h2
    · exact absurd h2 hi
    · have hw := h2 c hc
      by_contra hcon
      rw [Bool.not_eq_false] at hcon
      exact absurd (digit_isWordChar hcon) (by simp [hw])
  · intro c hc
    have hw := h3 c hc
    by_contra hcon
    rw [Bool.not_eq_false] at hcon
    exact absurd (digit_isWordChar hcon) (by simp [hw])

theorem four_digit_match_is_maximal_run_witness :
    searchFourIdx "12 4789 55".data = some 3 ∧ (' ').isDigit = false :=
  ⟨by decide,
    (four_digit_match_is_maximal_run.1 "12 4789 55".data 3 (by decide)).2 ' ' (by decide)⟩

theorem find?_map_overwrite_ne (tl : PyDict) (k v k' : String) (hne : k' ≠ k) :
    (tl.map fun p => if p.1 == k then (k, v) else p).find? (fun p => p.1 == k') =
      tl.find? (fun p => p.1 == k') := by
  induction tl with
  | nil => rfl
  | cons hd tl ih =>
    simp only [List.map_cons]
    by_cases hhd : (hd.1 == k) = true
    · rw [if_pos hhd]
      rw [beq_iff_eq] at hhd
      have h1 : (((k, v) : String × String).1 == k') = false := by
        simp only [beq_eq_false_iff_ne, ne_eq]
        exact fun h => hne h.symm
      have h2 : (hd.1 == k') = false := by
        rw [hhd]
        simp only [beq_eq_false_iff_ne, ne_eq]
        exact fun h => hne h.symm
      simp only [List.find?_cons, h1, h2, ih]
    · rw [if_neg hhd]
      simp only [List.find?_cons, ih]

theorem find?_map_overwrite_eq (d : PyDict) (k v : String)
    (hany : (d.any fun p => p.1 == k) = true) :
    (d.map fun p => if p.1 == k then (k, v) else p).find? (fun p => p.1 == k) =
      some (k, v) := by
  induction d with
  | nil => simp at hany
  | cons hd tl ih =>
    by_cases hhd : (hd.1 == k) = true
    · simp only [List.map_cons, if_pos hhd, List.find?_cons, beq_self_eq_true]
    · have hany' : (tl.any fun p => p.1 == k) = true := by
        rw [List.any_cons] at hany
        rcases Bool.or_eq_true_iff.mp hany with h | h
        · exact absurd h hhd
        · exact h
      have hhd2 : (hd.1 == k) = false := Bool.not_eq_true _ ▸ hhd
      simp only [List.map_cons, List.find?_cons, hhd2, Bool.false_eq_true, if_false,
        ih hany']

theorem dictLookup_dictInsert (d : PyDict) (k v k' : String) :
    dictLookup (dictInsert d k v) k' = if k' = k then some v else dictLookup d k' := by
  unfold dictInsert dictLookup
  by_cases hany : (d.any fun p => p.1 == k) = true
  · rw [if_pos hany]
    by_cases hk : k' = k
    · subst hk
      rw [if_pos rfl, find?_map_overwrite_eq d k' v hany]
      rfl
    · rw [if_neg hk, find?_map_overwrite_ne d k v k' hk]
  · rw [if_neg hany, List.find?_append]
    by_cases hk : k' = k
    · subst hk
      have hnone : (d.find? fun p => p.1 == k') = none := by
        rw [List.find?_eq_none]
        intro p hp
        intro hcon
        exact hany (List.any_eq_true.mpr ⟨p, hp, hcon⟩)
      rw [if_pos rfl, hnone, Option.none_or, List.find?_singleton, if_pos (by simp)]
      rfl
    · have hone : (([(k, v)] : PyDict).find? fun p => p.1 == k') = none := by
        rw [List.find?_singleton, if_neg (by simp; exact fun h => hk h.symm)]
      rw [if_neg hk, hone, Option.or_none]

theorem dictLookup_eq_none_of_not_mem_keys {d : PyDict} {k : String}
    (h : k ∉ dictKeys d) : dictLookup d k = none := by
  unfold dictLookup
  rw [List.find?_eq_none.mpr]
  · rfl
  · intro p hp hcon
    rw [beq_iff_eq] at hcon
    exact h (hcon ▸ List.mem_map_of_mem Prod.fst hp)

theorem mem_keys_of_dictLookup_isSome {d : PyDict} {k : String}
    (h : (dictLookup d k).isSome = true) : k ∈ dictKeys d := by
  by_contra hcon
  rw [dictLookup_eq_none_of_not_mem_keys hcon] at h
  exact absurd h (by simp)

theorem dictLookup_isSome_of_mem_keys {d : PyDict} {k : String}
    (h : k ∈ dictKeys d) : (dictLookup d k).isSome = true := by
  induction d with
  | nil => simp [dictKeys] at h
  | cons hd tl ih =>
    unfold dictLookup
    simp only [List.find?_cons]
    by_cases hhd : (hd.1 == k) = true
    · simp [hhd]
    · have hhd2 : (hd.1 == k) = false := Bool.not_eq_true _ ▸ hhd
      simp only [hhd2]
      rcases List.mem_cons.mp h with h | h
      · exact absurd (beq_iff_eq.mpr h.symm) hhd
      · simpa [dictLookup] using ih h

theorem mem_keys_dictInsert_of_mem {d : PyDict} {k v k' : String}
    (h : k' ∈ dictKeys d) : k' ∈ dictKeys (dictInsert d k v) := by
  apply mem_keys_of_dictLookup_isSome
  rw [dictLookup_dictInsert]
  by_cases hk : k' = k
  · rw [if_pos hk]
    rfl
  · rw [if_neg hk]
    exact dictLookup_isSome_of_mem_keys h

theorem mem_keys_dictInsert_self (d : PyDict) (k v : String) :
    k ∈ dictKeys (dictInsert d k v) := by
  apply mem_keys_of_dictLookup_isSome
  rw [dictLookup_dictInsert, if_pos rfl]
  rfl

theorem lastWrite_append (a b : List (String × String)) (k : String) :
    lastWrite (a ++ b) k = (lastWrite b k).or (lastWrite a k) := by
  induction a with
  | nil => simp [lastWrite, Option.or_none]
  | cons p a ih =>
    simp only [List.cons_append, lastWrite, List.append_eq, ih, Option.or_assoc]

theorem dictLookup_foldl_inserts (l : List (String × String)) (d : PyDict) (k : String) :
    dictLookup (l.foldl (fun acc p => dictInsert acc p.1 p.2) d) k =
      (lastWrite l k).or (dictLookup d k) := by
  induction l generalizing d with
  | nil => simp [lastWrite]
  | cons p l ih =>
    rw [List.foldl_cons, ih, lastWrite, Option.or_assoc]
    congr 1
    rw [dictLookup_dictInsert]
    by_cases hk : k = p.1
    · rw [if_pos hk, if_pos hk.symm]
      rfl
    · rw [if_neg hk, if_neg (fun h => hk h.symm), Option.none_or]

theorem dictInsert_length_le (d : PyDict) (k v : String) :
    d.length ≤ (dictInsert d k v).length := by
  unfold dictInsert
  by_cases hany : (d.any fun p => p.1 == k) = true
  · rw [if_pos hany, List.length_map]
  · rw [if_neg hany, List.length_append]
    omega

theorem foldl_inserts_ne_nil (l : List (String × String)) (d : PyDict) (h : d ≠ []) :
    l.foldl (fun acc p => dictInsert acc p.1 p.2) d ≠ [] := by
  induction l generalizing d with
  | nil => exact h
  | cons p l ih =>
    rw [List.foldl_cons]
    refine ih _ ?_
    intro hcon
    have h1 := dictInsert_length_le d p.1 p.2
    rw [hcon] at h1
    simp at h1
    exact h (List.length_eq_zero.mp (Nat.le_zero.mp (h1 ▸ Nat.le_refl _)))

theorem foldl_extract_step (rows : List (List String)) (acc : PyDict) :
    rows.foldl
      (fun acc row =>
        match extract_row row with
        | some kv => dictInsert acc kv.1 kv.2
        | none => acc) acc =
      (rows.filterMap extract_row).foldl (fun a p => dictInsert a p.1 p.2) acc := by
  induction rows generalizing acc with
  | nil => rfl
  | cons r rows ih =>
    cases h : extract_row r with
    | some kv => simp only [List.foldl_cons, List.filterMap_cons, h, ih]
    | none => simp only [List.foldl_cons, List.filterMap_cons, h, ih]

theorem extract_mcc_from_dataframe_eq_foldl (rows : List (List String)) (tn : String) :
    extract_mcc_from_dataframe rows tn =
      (tableInserts rows).foldl (fun a p => dictInsert a p.1 p.2) [] :=
  foldl_extract_step rows []

theorem tableInserts_nil_of_extract_nil (t : List (List String)) (tn : String)
    (h : extract_mcc_from_dataframe t tn = []) : tableInserts t = [] := by
  by_contra hcon
  cases hti : tableInserts t with
  | nil => exact hcon hti
  | cons p rest =>
    rw [extract_mcc_from_dataframe_eq_foldl t tn, hti, List.foldl_cons] at h
    refine foldl_inserts_ne_nil rest (dictInsert [] p.1 p.2) ?_ h
    unfold dictInsert
    simp

theorem dictLookup_extract (rows : List (List String)) (tn k : String) :
    dictLookup (extract_mcc_from_dataframe rows tn) k = lastWrite (tableInserts rows) k := by
  rw [extract_mcc_from_dataframe_eq_foldl rows tn, dictLookup_foldl_inserts]
  simp [dictLookup]

theorem dictKeys_map_overwrite (d : PyDict) (k v : String) :
    dictKeys (d.map fun p => if p.1 == k then (k, v) else p) = dictKeys d := by
  unfold dictKeys
  rw [List.map_map]
  refine List.map_congr_left ?_
  intro p hp
  by_cases hpk : (p.1 == k) = true
  · simp only [Function.comp_apply, if_pos hpk]
    exact (beq_iff_eq.mp hpk).symm
  · simp only [Function.comp_apply, if_neg hpk]

theorem nodup_keys_dictInsert (d : PyDict) (k v : String)
    (h : (dictKeys d).Nodup) : (dictKeys (dictInsert d k v)).Nodup := by
  unfold dictInsert
  by_cases hany : (d.any fun p => p.1 == k) = true
  · rw [if_pos hany, dictKeys_map_overwrite]
    exact h
  · rw [if_neg hany]
    unfold dictKeys
    rw [List.map_append]
    refine List.Nodup.append h (List.nodup_singleton _) ?_
    intro a ha hb
    simp only [List.map_cons, List.map_nil, List.mem_singleton] at hb
    subst hb
    obtain ⟨p, hp, hpk⟩ := List.mem_map.mp ha
    exact hany (List.any_eq_true.mpr ⟨p, hp, beq_iff_eq.mpr hpk⟩)

theorem nodup_keys_foldl_inserts (l : List (String × String)) (d : PyDict)
    (h : (dictKeys d).Nodup) :
    (dictKeys (l.foldl (fun acc p => dictInsert acc p.1 p.2) d)).Nodup := by
  induction l generalizing d with
  | nil => exact h
  | cons p l ih => exact ih _ (nodup_keys_dictInsert d p.1 p.2 h)

theorem nodup_keys_extract (rows : List (List String)) (tn : String) :
    (dictKeys (extract_mcc_from_dataframe rows tn)).Nodup := by
  rw [extract_mcc_from_dataframe_eq_foldl rows tn]
  exact nodup_keys_foldl_inserts _ [] (by simp [dictKeys])

theorem lastWrite_eq_dictLookup_of_nodup (d : PyDict) (h : (dictKeys d).Nodup)
    (k : String) : lastWrite d k = dictLookup d k := by
  induction d with
  | nil => rfl
  | cons hd tl ih =>
    have hkeys : dictKeys (hd :: tl) = hd.1 :: dictKeys tl := rfl
    rw [hkeys, List.nodup_cons] at h
    unfold lastWrite dictLookup
    simp only [List.find?_cons]
    by_cases hk : hd.1 = k
    · have hnone : dictLookup tl k = none :=
        dictLookup_eq_none_of_not_mem_keys (hk ▸ h.1)
      rw [if_pos hk, ih h.2, hnone, Option.none_or]
      have hbeq : (hd.1 == k) = true := beq_iff_eq.mpr hk
      simp [hbeq]
    · have hbeq : (hd.1 == k) = false := by
        simp only [beq_eq_false_iff_ne, ne_eq]
        exact hk
      rw [if_neg hk, Option.or_none, ih h.2]
      simp [hbeq, dictLookup]

theorem dictLookup_dictUpdate (d e : PyDict) (k : String)
    (he : (dictKeys e).Nodup) :
    dictLookup (dictUpdate d e) k = (dictLookup e k).or (dictLookup d k) := by
  unfold dictUpdate
  rw [dictLookup_foldl_inserts, lastWrite_eq_dictLookup_of_nodup e he]

theorem dictLookup_processTables (tables : List (List (List String)))
    (st : LoopState) (page : Nat) (k : String) :
    dictLookup (processTables st page tables).all_mcc_data k =
      (lastWrite (tables.flatMap tableInserts) k).or (dictLookup st.all_mcc_data k) := by
  induction tables generalizing st with
  | nil => simp [processTables, lastWrite]
  | cons t ts ih =>
    rw [show processTables st page (t :: ts) =
        processTables
          (if extract_mcc_from_dataframe t "" ≠ [] then
            { st with
              all_mcc_data := dictUpdate st.all_mcc_data (extract_mcc_from_dataframe t ""),
              successful_pages := st.successful_pages ++ [page] }
          else st) page ts from rfl]
    rw [ih, List.flatMap_cons, lastWrite_append, Option.or_assoc]
    congr 1
    by_cases hc : extract_mcc_from_dataframe t "" = []
    · rw [if_neg (fun hcon => hcon hc), tableInserts_nil_of_extract_nil t "" hc]
      simp [lastWrite]
    · rw [if_pos hc]
      show dictLookup (dictUpdate st.all_mcc_data (extract_mcc_from_dataframe t "")) k = _
      rw [dictLookup_dictUpdate _ _ _ (nodup_keys_extract t ""), dictLookup_extract]

theorem dictLookup_loop (pages : List Nat) (engine : Engine) (st : LoopState)
    (k : String) :
    dictLookup ((pages.foldl (processPage engine) st).all_mcc_data) k =
      (lastWrite (runInserts pages engine) k).or (dictLookup st.all_mcc_data k) := by
  induction pages generalizing st with
  | nil => simp [runInserts, lastWrite]
  | cons p ps ih =>
    rw [List.foldl_cons, ih]
    unfold runInserts
    rw [List.flatMap_cons, lastWrite_append, Option.or_assoc]
    congr 1
    unfold processPage pageInserts
    cases hengine : engine p with
    | error e => rfl
    | ok tables => exact dictLookup_processTables tables st p k

theorem processTables_failed_pages (tables : List (List (List String)))
    (st : LoopState) (page : Nat) :
    (processTables st page tables).failed_pages = st.failed_pages := by
  induction tables generalizing st with
  | nil => rfl
  | cons t ts ih =>
    rw [show processTables st page (t :: ts) =
        processTables
          (if extract_mcc_from_dataframe t "" ≠ [] then
            { st with
              all_mcc_data := dictUpdate st.all_mcc_data (extract_mcc_from_dataframe t ""),
              successful_pages := st.successful_pages ++ [page] }
          else st) page ts from rfl]
    rw [ih]
    by_cases hc : extract_mcc_from_dataframe t "" = []
    · rw [if_neg (fun hcon => hcon hc)]
    · rw [if_pos hc]

theorem loop_failed_pages (pages : List Nat) (engine : Engine) (st : LoopState) :
    (pages.foldl (processPage engine) st).failed_pages =
      st.failed_pages ++ pages.filter (engineRaises engine) := by
  induction pages generalizing st with
  | nil => simp
  | cons p ps ih =>
    rw [List.foldl_cons, ih, List.filter_cons]
    cases hengine : engine p with
    | error e =>
      have h1 : engineRaises engine p = true := by
        unfold engineRaises
        rw [hengine]
      have h2 : processPage engine st p =
          { st with failed_pages := st.failed_pages ++ [p] } := by
        unfold processPage
        rw [hengine]
      rw [h1, h2, if_pos rfl]
      simp
    | ok tables =>
      have h1 : engineRaises engine p = false := by
        unfold engineRaises
        rw [hengine]
      have h2 : processPage engine st p = processTables st p tables := by
        unfold processPage
        rw [hengine]
      rw [h1, h2, processTables_failed_pages, if_neg Bool.false_ne_true]

theorem mem_keys_foldl_inserts_mono (l : List (String × String)) (d : PyDict)
    (k : String) (h : k ∈ dictKeys d) :
    k ∈ dictKeys (l.foldl (fun acc p => dictInsert acc p.1 p.2) d) := by
  induction l generalizing d with
  | nil => exact h
  | cons p l ih => exact ih _ (mem_keys_dictInsert_of_mem h)

theorem mem_keys_dictUpdate_left (d e : PyDict) (k : String) (h : k ∈ dictKeys d) :
    k ∈ dictKeys (dictUpdate d e) :=
  mem_keys_foldl_inserts_mono e d k h

theorem mem_keys_dictUpdate_right (d e : PyDict) (k : String) (h : k ∈ dictKeys e) :
    k ∈ dictKeys (dictUpdate d e) := by
  obtain ⟨p, hp, hpk⟩ := List.mem_map.mp h
  obtain ⟨u1, u2, rfl⟩ := List.append_of_mem hp
  unfold dictUpdate
  rw [List.foldl_append, List.foldl_cons]
  refine mem_keys_foldl_inserts_mono u2 _ k ?_
  exact hpk ▸ mem_keys_dictInsert_self _ p.1 p.2

theorem mem_keys_processTables_mono (tables : List (List (List String)))
    (st : LoopState) (page : Nat) (k : String) (h : k ∈ dictKeys st.all_mcc_data) :
    k ∈ dictKeys (processTables st page tables).all_mcc_data := by
  induction tables generalizing st with
  | nil => exact h
  | cons t ts ih =>
    rw [show processTables st page (t :: ts) =
        processTables
          (if extract_mcc_from_dataframe t "" ≠ [] then
            { st with
              all_mcc_data := dictUpdate st.all_mcc_data (extract_mcc_from_dataframe t ""),
              successful_pages := st.successful_pages ++ [page] }
          else st) page ts from rfl]
    refine ih _ ?_
    by_cases hc : extract_mcc_from_dataframe t "" = []
    · rw [if_neg (fun hcon => hcon hc)]
      exact h
    · rw [if_pos hc]
      exact mem_keys_dictUpdate_left _ _ k h

theorem mem_keys_processPage_mono (engine : Engine) (st : LoopState) (p : Nat)
    (k : String) (h : k ∈ dictKeys st.all_mcc_data) :
    k ∈ dictKeys (processPage engine st p).all_mcc_data := by
  unfold processPage
  cases engine p with
  | error e => exact h
  | ok tables => exact mem_keys_processTables_mono tables st p k h

theorem mem_keys_loop_mono (pages : List Nat) (engine : Engine) (st : LoopState)
    (k : String) (h : k ∈ dictKeys st.all_mcc_data) :
    k ∈ dictKeys ((pages.foldl (processPage engine) st).all_mcc_data) := by
  induction pages generalizing st with
  | nil => exact h
  | cons p ps ih =>
    rw [List.foldl_cons]
    exact ih _ (mem_keys_processPage_mono engine st p k h)

theorem mem_keys_processTables_of_table (tables : List (List (List String)))
    (st : LoopState) (page : Nat) (t : List (List String)) (ht : t ∈ tables)
    (k : String) (hk : k ∈ dictKeys (extract_mcc_from_dataframe t "")) :
    k ∈ dictKeys (processTables st page tables).all_mcc_data := by
  obtain ⟨u1, u2, rfl⟩ := List.append_of_mem ht
  induction u1 generalizing st with
  | nil =>
    rw [List.nil_append]
    rw [show processTables st page (t :: u2) =
        processTables
          (if extract_mcc_from_dataframe t "" ≠ [] then
            { st with
              all_mcc_data := dictUpdate st.all_mcc_data (extract_mcc_from_dataframe t ""),
              successful_pages := st.successful_pages ++ [page] }
          else st) page u2 from rfl]
    have hne : extract_mcc_from_dataframe t "" ≠ [] := by
      intro hcon
      rw [hcon] at hk
      simp [dictKeys] at hk
    rw [if_pos hne]
    exact mem_keys_processTables_mono u2 _ page k (mem_keys_dictUpdate_right _ _ k hk)
  | cons t0 u1 ih =>
    rw [show processTables st page ((t0 :: u1) ++ t :: u2) =
        processTables
          (if extract_mcc_from_dataframe t0 "" ≠ [] then
            { st with
              all_mcc_data := dictUpdate st.all_mcc_data (extract_mcc_from_dataframe t0 ""),
              successful_pages := st.successful_pages ++ [page] }
          else st) page (u1 ++ t :: u2) from rfl]
    exact ih _ (List.mem_append_right u1 (List.mem_cons_self t u2))

/-- C4: page-level fault isolation: for every run, the failed-pages list is
exactly the pages (in order) for which the engine raises, and any code
extracted from a table of a non-raising page appears in the final mapping.
In particular, with an engine raising for page 5 only, a run over pages
4-6 reports failed pages [5] while codes of pages 4 and 6 survive. -/
theorem page_failures_isolated :
    (∀ (pages : List Nat) (engine : Engine),
      (extract_mcc_with_camelot pages engine).failed_pages =
        pages.filter (engineRaises engine)) ∧
    (∀ (pages : List Nat) (engine : Engine) (p : Nat)
      (tables : List (List (List String))) (t : List (List String)) (k : String),
      p ∈ pages → engine p = Except.ok tables → t ∈ tables →
      k ∈ dictKeys (extract_mcc_from_dataframe t "") →
      k ∈ dictKeys (extract_mcc_with_camelot pages engine).all_mcc_data) := by
  constructor
  · intro pages engine
    unfold extract_mcc_with_camelot
    rw [loop_failed_pages]
    rfl
  · intro pages engine p tables t k hp hok ht hk
    obtain ⟨l1, l2, rfl⟩ := List.append_of_mem hp
    unfold extract_mcc_with_camelot
    rw [List.foldl_append, List.foldl_cons]
    refine mem_keys_loop_mono l2 engine _ k ?_
    have hpp : processPage engine (List.foldl (processPage engine) ⟨[], [], []⟩ l1) p =
        processTables (List.foldl (processPage engine) ⟨[], [], []⟩ l1) p tables := by
      unfold processPage
      rw [hok]
    rw [hpp]
    exact mem_keys_processTables_of_table tables _ p t ht k hk

theorem page_failures_isolated_witness :
    (extract_mcc_with_camelot [4, 5, 6] engineScenario).failed_pages = [5] ∧
    "4722" ∈ dictKeys (extract_mcc_with_camelot [4, 5, 6] engineScenario).all_mcc_data ∧
    "6011" ∈ dictKeys (extract_mcc_with_camelot [4, 5, 6] engineScenario).all_mcc_data := by
  refine ⟨?_, ?_, ?_⟩
  · rw [page_failures_isolated.1 [4, 5, 6] engineScenario]
    decide
  · exact page_failures_isolated.2 [4, 5, 6] engineScenario 4
      [[["4722", "Travel Agencies"]]] [["4722", "Travel Agencies"]] "4722"
      (by decide) (by rfl) (by decide) (by decide)
  · exact page_failures_isolated.2 [4, 5, 6] engineScenario 6
      [[["6011", "Banks"]]] [["6011", "Banks"]] "6011"
      (by decide) (by rfl) (by decide) (by decide)

/-- C8: accumulation invariant of the ExtractionResult mapping: across the
page/table merge loop the key set only grows (a key present in the state
stays present), and the value finally recorded for a code is the one of
the last successful row extraction with that code in iteration order
(last-write-wins). -/
theorem extraction_result_accumulates :
    (∀ (pages : List Nat) (engine : Engine) (st : LoopState) (k : String),
      k ∈ dictKeys st.all_mcc_data →
      k ∈ dictKeys ((pages.foldl (processPage engine) st).all_mcc_data)) ∧
    (∀ (pages : List Nat) (engine : Engine) (k : String),
      dictLookup (extract_mcc_with_camelot pages engine).all_mcc_data k =
        lastWrite (runInserts pages engine) k) := by
  constructor
  · exact fun pages engine st k h => mem_keys_loop_mono pages engine st k h
  · intro pages engine k
    unfold extract_mcc_with_camelot
    rw [dictLookup_loop]
    simp [dictLookup]

theorem extraction_result_accumulates_witness :
    "0001" ∈ dictKeys
      ((List.foldl (processPage engineScenario)
        (⟨[("0001", "Existing entry")], [], []⟩ : LoopState) [4, 5, 6]).all_mcc_data) :=
  extraction_result_accumulates.1 [4, 5, 6] engineScenario
    ⟨[("0001", "Existing entry")], [], []⟩ "0001" (by decide)

theorem hexVal_hexDigitChar (n : Nat) (h : n < 16) :
    hexVal (hexDigitChar n) = some n := by
  interval_cases n <;> rfl

theorem ofHex4_toHex4 (n : Nat) (h : n < 65536) :
    ofHex4 (hexDigitChar (n / 4096 % 16)) (hexDigitChar (n / 256 % 16))
      (hexDigitChar (n / 16 % 16)) (hexDigitChar (n % 16)) = some n := by
  unfold ofHex4
  rw [hexVal_hexDigitChar (n / 4096 % 16) (by omega),
    hexVal_hexDigitChar (n / 256 % 16) (by omega),
    hexVal_hexDigitChar (n / 16 % 16) (by omega),
    hexVal_hexDigitChar (n % 16) (by omega)]
  show some _ = some n
  congr 1
  omega

theorem char_toNat_valid (c : Char) :
    c.toNat < 0xd800 ∨ (0xdfff < c.toNat ∧ c.toNat < 0x110000) := by
  rcases c.valid with h | ⟨h1, h2⟩
  · exact Or.inl (UInt32.toNat_lt_of_lt (by decide) h)
  · exact Or.inr ⟨UInt32.lt_toNat_of_lt (by decide) h1,
      UInt32.toNat_lt_of_lt (by decide) h2⟩

theorem decodeOne_u (a b c d : Char) (r2 : List Char) :
    decodeOne (backslashChar :: 'u' :: a :: b :: c :: d :: r2) =
      decodeUnicode a b c d r2 := rfl

theorem decodeUnicode_hex {a b c d : Char} {n : Nat}
    (h : ofHex4 a b c d = some n) (r2 : List Char) :
    decodeUnicode a b c d r2 = decodeUnicodeNat n r2 := by
  unfold decodeUnicode
  rw [h]

theorem decodeSurrogateTail_u {a2 b2 c2 d2 : Char} {m : Nat}
    (h : ofHex4 a2 b2 c2 d2 = some m) (n : Nat) (r3 : List Char) :
    decodeSurrogateTail n (backslashChar :: 'u' :: a2 :: b2 :: c2 :: d2 :: r3) =
      decodeLowSurrogate n m r3 := by
  simp only [decodeSurrogateTail]
  rw [if_pos ⟨trivial, trivial⟩, h]

theorem decodeOne_escapeChar (c : Char) (tail : List Char) :
    decodeOne (escapeChar c ++ tail) = some (c, tail) := by
  by_cases h1 : c = quoteChar
  · subst h1
    rw [show escapeChar quoteChar = [backslashChar, quoteChar] from rfl]
    rfl
  by_cases h2 : c = backslashChar
  · subst h2
    rw [show escapeChar backslashChar = [backslashChar, backslashChar] from rfl]
    rfl
  by_cases h3 : c = '\n'
  · subst h3
    rw [show escapeChar '\n' = [backslashChar, 'n'] from rfl]
    rfl
  by_cases h4 : c = '\r'
  · subst h4
    rw [show escapeChar '\r' = [backslashChar, 'r'] from rfl]
    rfl
  by_cases h5 : c = '\t'
  · subst h5
    rw [show escapeChar '\t' = [backslashChar, 't'] from rfl]
    rfl
  by_cases h6 : c.toNat = 8
  · have hesc : escapeChar c = [backslashChar, 'b'] := by
      unfold escapeChar
      rw [if_neg h1, if_neg h2, if_neg h3, if_neg h4, if_neg h5, if_pos h6]
    rw [hesc]
    show some (Char.ofNat 8, tail) = some (c, tail)
    rw [← h6, Char.ofNat_toNat]
  by_cases h7 : c.toNat = 12
  · have hesc : escapeChar c = [backslashChar, 'f'] := by
      unfold escapeChar
      rw [if_neg h1, if_neg h2, if_neg h3, if_neg h4, if_neg h5, if_neg h6, if_pos h7]
    rw [hesc]
    show some (Char.ofNat 12, tail) = some (c, tail)
    rw [← h7, Char.ofNat_toNat]
  by_cases h8 : c.toNat < 0x20
  · have hesc : escapeChar c = backslashChar :: 'u' :: toHex4 c.toNat := by
      unfold escapeChar
      rw [if_neg h1, if_neg h2, if_neg h3, if_neg h4, if_neg h5, if_neg h6, if_neg h7,
        if_pos h8]
    rw [hesc]
    rw [show (backslashChar :: 'u' :: toHex4 c.toNat) ++ tail =
      backslashChar :: 'u' :: hexDigitChar (c.toNat / 4096 % 16) ::
        hexDigitChar (c.toNat / 256 % 16) :: hexDigitChar (c.toNat / 16 % 16) ::
        hexDigitChar (c.toNat % 16) :: tail from rfl]
    rw [decodeOne_u, decodeUnicode_hex (ofHex4_toHex4 c.toNat (by omega))]
    unfold decodeUnicodeNat
    rw [if_pos (by omega), Char.ofNat_toNat]
  by_cases h9 : c.toNat ≤ 0x7e
  · have hesc : escapeChar c = [c] := by
      unfold escapeChar
      rw [if_neg h1, if_neg h2, if_neg h3, if_neg h4, if_neg h5, if_neg h6, if_neg h7,
        if_neg h8, if_pos h9]
    rw [hesc]
    show decodeOne (c :: tail) = some (c, tail)
    simp only [decodeOne]
    rw [if_neg h1, if_neg h2]
  by_cases h10 : c.toNat < 0x10000
  · have hesc : escapeChar c = backslashChar :: 'u' :: toHex4 c.toNat := by
      unfold escapeChar
      rw [if_neg h1, if_neg h2, if_neg h3, if_neg h4, if_neg h5, if_neg h6, if_neg h7,
        if_neg h8, if_neg h9, if_pos h10]
    rw [hesc]
    rw [show (backslashChar :: 'u' :: toHex4 c.toNat) ++ tail =
      backslashChar :: 'u' :: hexDigitChar (c.toNat / 4096 % 16) ::
        hexDigitChar (c.toNat / 256 % 16) :: hexDigitChar (c.toNat / 16 % 16) ::
        hexDigitChar (c.toNat % 16) :: tail from rfl]
    rw [decodeOne_u, decodeUnicode_hex (ofHex4_toHex4 c.toNat (by omega))]
    unfold decodeUnicodeNat
    rcases char_toNat_valid c with hv | hv
    · rw [if_pos hv, Char.ofNat_toNat]
    · rw [if_neg (by omega), if_pos (by omega), Char.ofNat_toNat]
  · have hesc : escapeChar c =
        backslashChar :: 'u' ::
          (toHex4 (0xd800 + (c.toNat - 0x10000) / 0x400) ++
            backslashChar :: 'u' :: toHex4 (0xdc00 + (c.toNat - 0x10000) % 0x400)) := by
      unfold escapeChar
      rw [if_neg h1, if_neg h2, if_neg h3, if_neg h4, if_neg h5, if_neg h6, if_neg h7,
        if_neg h8, if_neg h9, if_neg h10]
    have hv : c.toNat < 0x110000 := by
      rcases char_toNat_valid c with hv | hv
      · omega
      · exact hv.2
    rw [hesc]
    rw [show (backslashChar :: 'u' ::
        (toHex4 (0xd800 + (c.toNat - 0x10000) / 0x400) ++
          backslashChar :: 'u' :: toHex4 (0xdc00 + (c.toNat - 0x10000) % 0x400))) ++ tail =
      backslashChar :: 'u' ::
        hexDigitChar ((0xd800 + (c.toNat - 0x10000) / 0x400) / 4096 % 16) ::
        hexDigitChar ((0xd800 + (c.toNat - 0x10000) / 0x400) / 256 % 16) ::
        hexDigitChar ((0xd800 + (c.toNat - 0x10000) / 0x400) / 16 % 16) ::
        hexDigitChar ((0xd800 + (c.toNat - 0x10000) / 0x400) % 16) ::
        backslashChar :: 'u' ::
        hexDigitChar ((0xdc00 + (c.toNat - 0x10000) % 0x400) / 4096 % 16) ::
        hexDigitChar ((0xdc00 + (c.toNat - 0x10000) % 0x400) / 256 % 16) ::
        hexDigitChar ((0xdc00 + (c.toNat - 0x10000) % 0x400) / 16 % 16) ::
        hexDigitChar ((0xdc00 + (c.toNat - 0x10000) % 0x400) % 16) :: tail from by
      simp [toHex4]]
    rw [decodeOne_u,
      decodeUnicode_hex (ofHex4_toHex4 (0xd800 + (c.toNat - 0x10000) / 0x400) (by omega))]
    unfold decodeUnicodeNat
    rw [if_neg (by omega), if_neg (by omega), if_pos (by omega)]
    rw [decodeSurrogateTail_u
      (ofHex4_toHex4 (0xdc00 + (c.toNat - 0x10000) % 0x400) (by omega))]
    unfold decodeLowSurrogate
    rw [if_pos ⟨by omega, by omega⟩]
    have harith : 0x10000 + ((0xd800 + (c.toNat - 0x10000) / 0x400) - 0xd800) * 0x400 +
        ((0xdc00 + (c.toNat - 0x10000) % 0x400) - 0xdc00) = c.toNat := by
      omega
    rw [harith, Char.ofNat_toNat]

theorem escapeChar_head_ne_quote (c : Char) :
    ∃ c0 cs, escapeChar c = c0 :: cs ∧ ¬c0 = quoteChar := by
  unfold escapeChar
  by_cases h1 : c = quoteChar
  · rw [if_pos h1]; exact ⟨_, _, rfl, by decide⟩
  rw [if_neg h1]
  by_cases h2 : c = backslashChar
  · rw [if_pos h2]; exact ⟨_, _, rfl, by decide⟩
  rw [if_neg h2]
  by_cases h3 : c = '\n'
  · rw [if_pos h3]; exact ⟨_, _, rfl, by decide⟩
  rw [if_neg h3]
  by_cases h4 : c = '\r'
  · rw [if_pos h4]; exact ⟨_, _, rfl, by decide⟩
  rw [if_neg h4]
  by_cases h5 : c = '\t'
  · rw [if_pos h5]; exact ⟨_, _, rfl, by decide⟩
  rw [if_neg h5]
  by_cases h6 : c.toNat = 8
  · rw [if_pos h6]; exact ⟨_, _, rfl, by decide⟩
  rw [if_neg h6]
  by_cases h7 : c.toNat = 12
  · rw [if_pos h7]; exact ⟨_, _, rfl, by decide⟩
  rw [if_neg h7]
  by_cases h8 : c.toNat < 0x20
  · rw [if_pos h8]; exact ⟨_, _, rfl, by decide⟩
  rw [if_neg h8]
  by_cases h9 : c.toNat ≤ 0x7e
  · rw [if_pos h9]; exact ⟨c, [], rfl, h1⟩
  rw [if_neg h9]
  by_cases h10 : c.toNat < 0x10000
  · rw [if_pos h10]; exact ⟨_, _, rfl, by decide⟩
  · rw [if_neg h10]; exact ⟨_, _, rfl, by decide⟩

theorem parseStringBody_step (fuel : Nat) (c : Char) (tail : List Char) :
    parseStringBody (fuel + 1) (escapeChar c ++ tail) =
      (parseStringBody fuel tail).map fun pr => (c :: pr.1, pr.2) := by
  obtain ⟨c0, cs, hc0, hq⟩ := escapeChar_head_ne_quote c
  have hdec : decodeOne (c0 :: (cs ++ tail)) = some (c, tail) := by
    rw [← List.cons_append, ← hc0]
    exact decodeOne_escapeChar c tail
  rw [hc0, List.cons_append]
  simp only [parseStringBody]
  rw [if_neg hq, hdec]

theorem escapeList_cons (c : Char) (s : List Char) :
    escapeList (c :: s) = escapeChar c ++ escapeList s := rfl

theorem length_le_escapeList (s : List Char) : s.length ≤ (escapeList s).length := by
  induction s with
  | nil => simp [escapeList]
  | cons c s ih =>
    rw [escapeList_cons, List.length_append, List.length_cons]
    obtain ⟨c0, cs, hc0, _⟩ := escapeChar_head_ne_quote c
    rw [hc0]
    simp only [List.length_cons]
    omega

theorem parseStringBody_roundTrip (s : List Char) (rest : List Char) (fuel : Nat)
    (hfuel : s.length < fuel) :
    parseStringBody fuel (escapeList s ++ quoteChar :: rest) = some (s, rest) := by
  induction s generalizing fuel with
  | nil =>
    cases fuel with
    | zero => exact absurd hfuel (Nat.not_lt_zero _)
    | succ fuel => rfl
  | cons c s ih =>
    cases fuel with
    | zero => exact absurd hfuel (Nat.not_lt_zero _)
    | succ fuel =>
      rw [escapeList_cons, List.append_assoc,
        parseStringBody_step fuel c (escapeList s ++ quoteChar :: rest),
        ih fuel (by rw [List.length_cons] at hfuel; omega)]
      rfl

theorem parseString_roundTrip (s : List Char) (rest : List Char) :
    parseString (escapeList s ++ quoteChar :: rest) = some (s, rest) := by
  unfold parseString
  refine parseStringBody_roundTrip s rest _ ?_
  have h1 := length_le_escapeList s
  rw [List.length_append, List.length_cons]
  omega

theorem parseItemStart_step (next : List Char → Option (List (String × String)))
    (s r1 : List Char) :
    parseItemStart next (' ' :: ' ' :: quoteChar :: (escapeList s ++ quoteChar :: r1)) =
      parseItemAfterKey next s r1 := by
  show (match parseString (escapeList s ++ quoteChar :: r1) with
    | some pr => parseItemAfterKey next pr.1 pr.2
    | none => none) = parseItemAfterKey next s r1
  rw [parseString_roundTrip]

theorem parseItemAfterKey_step (next : List Char → Option (List (String × String)))
    (k v r3 : List Char) :
    parseItemAfterKey next k (':' :: ' ' :: quoteChar :: (escapeList v ++ quoteChar :: r3)) =
      parseItemAfterVal next k v r3 := by
  show (match parseString (escapeList v ++ quoteChar :: r3) with
    | some pr => parseItemAfterVal next k pr.1 pr.2
    | none => none) = parseItemAfterVal next k v r3
  rw [parseString_roundTrip]

theorem parseItems_roundTrip (ps : List (String × String)) (fuel : Nat)
    (hfuel : ps.length ≤ fuel) (hne : ps ≠ []) :
    parseItems fuel (renderItems ps) = some ps := by
  induction ps generalizing fuel with
  | nil => exact absurd rfl hne
  | cons p ps ih =>
    cases fuel with
    | zero =>
      rw [List.length_cons] at hfuel
      exact absurd hfuel (by omega)
    | succ fuel =>
      cases ps with
      | nil =>
        show parseItemStart (parseItems fuel) (renderItems [p]) = some [p]
        rw [show renderItems [p] =
          ' ' :: ' ' :: quoteChar :: (escapeList p.1.data ++
            (quoteChar :: ':' :: ' ' :: quoteChar :: (escapeList p.2.data ++
              (quoteChar :: '\n' :: rbraceChar :: [])))) from rfl]
        rw [parseItemStart_step, parseItemAfterKey_step]
        rfl
      | cons q qs =>
        show parseItemStart (parseItems fuel) (renderItems (p :: q :: qs)) =
          some (p :: q :: qs)
        rw [show renderItems (p :: q :: qs) =
          ' ' :: ' ' :: quoteChar :: (escapeList p.1.data ++
            (quoteChar :: ':' :: ' ' :: quoteChar :: (escapeList p.2.data ++
              (quoteChar :: ',' :: '\n' :: renderItems (q :: qs))))) from rfl]
        rw [parseItemStart_step, parseItemAfterKey_step]
        show (parseItems fuel (renderItems (q :: qs))).map _ = _
        rw [ih fuel (by rw [List.length_cons] at hfuel; omega) (by simp)]
        rfl

theorem length_le_renderItems (p : String × String) (ps : List (String × String)) :
    (p :: ps).length ≤ (renderItems (p :: ps)).length := by
  induction ps generalizing p with
  | nil => simp [renderItems]
  | cons q qs ih =>
    have h := ih q
    rw [show renderItems (p :: q :: qs) =
      ' ' :: ' ' :: quoteChar :: (escapeList p.1.data ++
        (quoteChar :: ':' :: ' ' :: quoteChar :: (escapeList p.2.data ++
          (quoteChar :: ',' :: '\n' :: renderItems (q :: qs))))) from rfl]
    simp only [List.length_cons, List.length_append]
    simp only [List.length_cons] at h ⊢
    omega

theorem parse_saved_render (q : String × String) (qs : List (String × String)) :
    parse_saved (lbraceChar :: '\n' :: renderItems (q :: qs)) =
      parseItems (renderItems (q :: qs)).length (renderItems (q :: qs)) := by
  cases qs <;> rfl

theorem dictLookup_perm {d e : PyDict} (hperm : d.Perm e) (k : String) :
    (dictKeys e).Nodup → dictLookup d k = dictLookup e k := by
  induction hperm with
  | nil => exact fun _ => rfl
  | cons p h ih =>
    intro hnd
    rename_i l1 l2
    have hnd' : (dictKeys l2).Nodup := by
      have hk : dictKeys (p :: l2) = p.1 :: dictKeys l2 := rfl
      rw [hk, List.nodup_cons] at hnd
      exact hnd.2
    unfold dictLookup
    simp only [List.find?_cons]
    by_cases hp : (p.1 == k) = true
    · simp only [hp]
    · have hp2 : (p.1 == k) = false := Bool.not_eq_true _ ▸ hp
      simp only [hp2]
      have hih := ih hnd'
      unfold dictLookup at hih
      exact hih
  | swap x y l =>
    intro hnd
    have hkeys : dictKeys (x :: y :: l) = x.1 :: y.1 :: dictKeys l := rfl
    rw [hkeys, List.nodup_cons] at hnd
    have hxy : ¬x.1 = y.1 := fun hcon => hnd.1 (hcon ▸ List.mem_cons_self _ _)
    unfold dictLookup
    simp only [List.find?_cons]
    by_cases hx : (x.1 == k) = true
    · have hy : (y.1 == k) = false := by
        rw [beq_iff_eq] at hx
        simp only [beq_eq_false_iff_ne, ne_eq]
        intro hcon
        exact hxy (hx.trans hcon.symm)
      simp only [hx, hy]
    · have hx2 : (x.1 == k) = false := Bool.not_eq_true _ ▸ hx
      simp only [hx2]
  | trans h1 h2 ih1 ih2 =>
    intro hnd
    have hnd' := ((h2.map Prod.fst).nodup_iff).mpr hnd
    exact (ih1 hnd').trans (ih2 hnd)

/-- C5: round trip of the result writer: serializing a mapping as the
sorted, 2-space-indented JSON object text and parsing that text back
yields a mapping with the same keys and the same value for every key; the
keys appear in ascending order; the empty mapping serializes to the empty
JSON object, and a run over an existing file always writes a file. -/
theorem save_results_round_trip :
    (∀ d : PyDict, (dictKeys d).Nodup →
      ∃ d', parse_saved (save_results_content d).data = some d' ∧
        (∀ k, dictLookup d' k = dictLookup d k) ∧
        (∀ k, k ∈ dictKeys d' ↔ k ∈ dictKeys d) ∧
        d'.Pairwise fun p q => p.1 ≤ q.1) ∧
    save_results_content [] = "\x7b\x7d" ∧
    (∀ (pages : List Nat) (engine : Engine), ∃ s,
      (main_model true pages engine).outputWritten = some s) := by
  refine ⟨?_, by unfold save_results_content sortPairs; rw [List.mergeSort_nil], ?_⟩
  · intro d hnd
    have hperm : (sortPairs d).Perm d := List.mergeSort_perm d _
    have hsorted : (sortPairs d).Pairwise fun p q => p.1 ≤ q.1 := by
      unfold sortPairs
      refine List.Pairwise.imp ?_ (List.sorted_mergeSort ?_ ?_ d)
      · exact fun hab => of_decide_eq_true hab
      · intro a b c hab hbc
        rw [decide_eq_true_eq] at hab hbc ⊢
        exact le_trans hab hbc
      · intro a b
        rcases le_total a.1 b.1 with h | h <;> simp [h]
    refine ⟨sortPairs d, ?_, ?_, ?_, hsorted⟩
    · cases hsort : sortPairs d with
      | nil =>
        rw [show save_results_content d = "\x7b\x7d" from by
          unfold save_results_content; rw [hsort]]
        rfl
      | cons q qs =>
        rw [show save_results_content d =
          String.mk (lbraceChar :: '\n' :: renderItems (q :: qs)) from by
          unfold save_results_content; rw [hsort]]
        show parse_saved (lbraceChar :: '\n' :: renderItems (q :: qs)) = some (q :: qs)
        rw [parse_saved_render]
        exact parseItems_roundTrip (q :: qs) _ (length_le_renderItems q qs) (by simp)
    · exact fun k => dictLookup_perm hperm k hnd
    · exact fun k => (hperm.map Prod.fst).mem_iff
  · intro pages engine
    unfold main_model
    by_cases h : (extract_mcc_with_camelot pages engine).all_mcc_data ≠ []
    · rw [if_neg (by simp), if_pos h]
      exact ⟨_, rfl⟩
    · rw [if_neg (by simp), if_neg h]
      exact ⟨_, rfl⟩

theorem save_results_round_trip_witness :
    (parse_saved
      (save_results_content [("6011", "Banks"), ("4722", "Travel Agencies")]).data).isSome
      = true := by
  obtain ⟨d', hd', _, _, _⟩ := save_results_round_trip.1
    [("6011", "Banks"), ("4722", "Travel Agencies")] (by decide)
  rw [hd']
  rfl

/-- C7: a missing input PDF makes the driver exit with status 1 before any
extraction work, writing no output file; with an existing input the driver
completes with status 0 and writes the output file even when no codes were
extracted. -/
theorem missing_pdf_exits_one :
    (∀ (pages : List Nat) (engine : Engine),
      (main_model false pages engine).exitCode = 1 ∧
      (main_model false pages engine).extractionRan = false ∧
      (main_model false pages engine).outputWritten = none) ∧
    (∀ (pages : List Nat) (engine : Engine),
      (main_model true pages engine).exitCode = 0 ∧
      (main_model true pages engine).extractionRan = true ∧
      ∃ s, (main_model true pages engine).outputWritten = some s) := by
  constructor
  · exact fun pages engine => ⟨rfl, rfl, rfl⟩
  · intro pages engine
    unfold main_model
    by_cases h : (extract_mcc_with_camelot pages engine).all_mcc_data ≠ []
    · rw [if_neg (by simp), if_pos h]
      exact ⟨rfl, rfl, _, rfl⟩
    · rw [if_neg (by simp), if_neg h]
      exact ⟨rfl, rfl, _, rfl⟩

end MccPdf

